import Mathlib

/-!
# AtomiFit core logic: set-shape classification and workout aggregation

Shallow embedding of the classification and grouping/aggregation logic of the
AtomiFit workout tracker, together with proofs of the specified properties.

* `AtomiFit.Set` — the `Set` record (src/types/sets.ts, `sets_data` table).
* `AtomiFit.displayKeys` / `AtomiFit.setDisplayVariant` — the shape classifier
  (src/utils/setDisplayVariant.tsx and the inline copy in history.tsx).
* `AtomiFit.groupReduce` — the per-date grouping reduce of src/app/index.tsx.
* `AtomiFit.lvGroup` — the by-date grouping reduce of src/app/(calendar)/listView.tsx.
* `AtomiFit.catDedup` — the category dedup reduce of ListViewItem.
* `AtomiFit.historyGroup` — the by-date grouping reduce of history.tsx.
* `AtomiFit.displayDate` — src/utils/displayDate.ts.

SQLite `real` columns are modelled as `Rat`, `integer` columns as `Int`; nullable
columns are `Option`. Only null-ness and equality of these payloads matter to the
properties proved here.
-/

namespace AtomiFit

/-- The `Set` record (src/types/sets.ts): one logged measurement event.
Matches the `sets_data` table: nullable `weight`/`distance` are reals,
nullable `reps`/`time` are integers. -/
structure Set where
  id : Option Int
  date : String
  exercise_id : Int
  weight : Option Rat
  reps : Option Int
  distance : Option Rat
  time : Option Int
  notes : Option String
deriving DecidableEq, Repr

/-- The fixed key list of `setDisplayVariant`:
`const keys = ["weight", "reps", "distance", "time"]`. -/
def variantKeys : List String := ["weight", "reps", "distance", "time"]

/-- Dynamic field access `setObj[key as keyof Set] !== null` for the four
measurement keys (the only keys the source ever passes in). -/
def fieldNonNull (s : Set) : String → Bool
  | "weight" => s.weight.isSome
  | "reps" => s.reps.isSome
  | "distance" => s.distance.isSome
  | "time" => s.time.isSome
  | _ => false

/-- The key computation of `setDisplayVariant` (src/utils/setDisplayVariant.tsx
lines 42-48, and the identical inline computation in history.tsx lines 130-137):
`keys.filter((key) => setObj[key] !== null).join("_")`. -/
def displayKeys (s : Set) : String :=
  String.intercalate "_" (variantKeys.filter (fieldNonNull s))

/-- The presence pattern of the four measurement fields of a `Set`
(`weight`, `reps`, `distance`, `time`, in the declared order). -/
def shape (s : Set) : Bool × Bool × Bool × Bool :=
  (s.weight.isSome, s.reps.isSome, s.distance.isSome, s.time.isSome)

/-- The ten legal presence patterns of spec §4.1: exactly the one- and
two-element subsets of {weight, reps, distance, time}. -/
def legalShapes : List (Bool × Bool × Bool × Bool) :=
  [(true, true, false, false), (false, false, true, true), (true, false, true, false),
   (true, false, false, true), (false, true, true, false), (false, true, false, true),
   (true, false, false, false), (false, true, false, false), (false, false, true, false),
   (false, false, false, true)]

/-- Modelled from the spec's enumeration of the ten canonical shape keys
(§4.1): the underscore-joined key for each legal presence pattern, field
names in the fixed order weight, reps, distance, time. Junk (`""`) on the
six illegal patterns, whose behaviour the spec leaves undefined. -/
def canonicalKey : Bool × Bool × Bool × Bool → String
  | (true, true, false, false) => "weight_reps"
  | (false, false, true, true) => "distance_time"
  | (true, false, true, false) => "weight_distance"
  | (true, false, false, true) => "weight_time"
  | (false, true, true, false) => "reps_distance"
  | (false, true, false, true) => "reps_time"
  | (true, false, false, false) => "weight"
  | (false, true, false, false) => "reps"
  | (false, false, true, false) => "distance"
  | (false, false, false, true) => "time"
  | _ => ""

/-- The ten keys present in every consumer's `displayVariants` dictionary
(history.tsx and ListViewItem both define exactly these keys). -/
def displayVariantDomain : List String :=
  ["weight_reps", "distance_time", "weight_distance", "weight_time",
   "reps_distance", "reps_time", "weight", "reps", "distance", "time"]

/-- Function `setDisplayVariant` (src/utils/setDisplayVariant.tsx): computes the key and
evaluates `displayVariantsDictionary[displayKeys](setObj)`. In JS, looking up a
missing key yields `undefined`, and invoking `undefined` throws a `TypeError`
that propagates to the caller; the throw is modelled as `Except.error`. The
dictionary of rendering closures is the parameter `dict` (`none` models an
absent key). -/
def setDisplayVariant {α : Type} (setObj : Set) (dict : String → Option (Set → α)) :
    Except String α :=
  match dict (displayKeys setObj) with
  | some f => Except.ok (f setObj)
  | none => Except.error "TypeError: displayVariantsDictionary[displayKeys] is not a function"

/-! ## The per-date grouping reduce of src/app/index.tsx -/

/-- One row of the index.tsx live query: `exercises` left-joined onto
`sets_data`, so `exerciseId`/`exerciseName` are nullable. -/
structure QueryData where
  exerciseId : Option Int
  exerciseName : Option String
  setsData : Set
deriving DecidableEq

/-- Output group of the index.tsx reduce. `exerciseName` is assigned from
`item.exerciseName!`; the `!` is a compile-time assertion only, so the runtime
value may still be null, hence `Option String`. -/
structure TransformedExerciseData where
  exerciseId : Int
  exerciseName : Option String
  sets : List Set
deriving DecidableEq

/-- The grouping key of the index.tsx reduce: `item.setsData.exercise_id`. -/
def rowKey (item : QueryData) : Int := item.setsData.exercise_id

/-- One step of the index.tsx reduce (lines 236-254): `acc.find` locates the
first group whose `exerciseId` matches and the set is pushed onto it; otherwise
a new group is appended at the end. -/
def addSet : List TransformedExerciseData → QueryData → List TransformedExerciseData
  | [], item => [⟨rowKey item, item.exerciseName, [item.setsData]⟩]
  | g :: gs, item =>
    if g.exerciseId = rowKey item then
      ⟨g.exerciseId, g.exerciseName, g.sets ++ [item.setsData]⟩ :: gs
    else
      g :: addSet gs item

/-- The grouping reduce of src/app/index.tsx lines 236-254. -/
def groupReduce (rows : List QueryData) : List TransformedExerciseData :=
  rows.foldl addSet []

/-- The ids of the accumulated groups, in order. -/
def groupIds (l : List TransformedExerciseData) : List Int := l.map (·.exerciseId)

/-- Concatenation of the set lists of all groups whose id is `e`. -/
def setsOfId (e : Int) (l : List TransformedExerciseData) : List Set :=
  ((l.filter (fun g => g.exerciseId = e)).map (·.sets)).flatten

/-- Concatenation of all groups' set lists. -/
def joinSets (l : List TransformedExerciseData) : List Set :=
  (l.map (·.sets)).flatten

/-- Modelled from the spec: "first-seen order" — the input list with every
later duplicate removed; `seen` accumulates the values already emitted. -/
def firstSeenAux {α : Type} [DecidableEq α] (seen : List α) : List α → List α
  | [] => []
  | x :: xs => if x ∈ seen then firstSeenAux seen xs else x :: firstSeenAux (x :: seen) xs

/-- Modelled from the spec: the values of a list in first-seen order, each
exactly once. -/
def firstSeen {α : Type} [DecidableEq α] (l : List α) : List α := firstSeenAux [] l

/-! ## The by-date grouping reduce of src/app/(calendar)/listView.tsx -/

/-- One entry of a date's group list in listView.tsx. Each query row carries a
whole per-exercise set list (built by `GROUP_CONCAT` in SQL and `JSON.parse`d).
The TypeScript interface declares the joined names non-null, but the left joins
can return null at runtime, hence `Option String`. -/
structure LVEntry where
  exercise_name : Option String
  category_name : Option String
  category_colour : Option String
  sets : List Set
deriving DecidableEq

/-- One row of the listView.tsx query (`QueryResult` with `sets` parsed). -/
structure LVRow where
  date : String
  exercise_name : Option String
  category_name : Option String
  category_colour : Option String
  sets : List Set
deriving DecidableEq

/-- The object pushed onto `acc[date]` for a row. -/
def entryOf (r : LVRow) : LVEntry :=
  ⟨r.exercise_name, r.category_name, r.category_colour, r.sets⟩

/-- The expression `a.sets[0].id!` in the sort comparator. The source throws on an empty set
list or a null id (both impossible for the query's output: `GROUP_CONCAT`
yields at least one set and `id` is the primary key); the model returns a junk
value `0` there. -/
def firstSetId (e : LVEntry) : Int :=
  match e.sets with
  | [] => 0
  | s :: _ => s.id.getD 0

/-- The comparator order of `acc[date].sort((a, b) => firstSetA - firstSetB)`. -/
def lvLEProp (a b : LVEntry) : Prop := firstSetId a ≤ firstSetId b

instance : DecidableRel lvLEProp := fun a b => by unfold lvLEProp; infer_instance

instance : IsTotal LVEntry lvLEProp :=
  ⟨fun a b => le_total (firstSetId a) (firstSetId b)⟩

instance : IsTrans LVEntry lvLEProp :=
  ⟨fun _ _ _ hab hbc => le_trans hab hbc⟩

/-- The call `acc[date].sort((a, b) => firstSetA - firstSetB)`: ES2019 specifies
`Array.prototype.sort` with a consistent comparator to produce the unique
sorted stable permutation of its input; modelled by stable insertion sort. -/
def jsSort (l : List LVEntry) : List LVEntry := l.insertionSort lvLEProp

/-- One step of the listView.tsx reduce at a given date key: initialize
`acc[date]` if absent, push the entry, and re-sort that date's list. JS object
keys (non-index string keys such as dates) enumerate in insertion order, so the
accumulator object is an association list with append-on-new-key. -/
def updateDate (acc : List (String × List LVEntry)) (d : String) (e : LVEntry) :
    List (String × List LVEntry) :=
  match acc with
  | [] => [(d, jsSort [e])]
  | (d', l) :: rest =>
    if d' = d then (d', jsSort (l ++ [e])) :: rest
    else (d', l) :: updateDate rest d e

/-- One step of the listView.tsx reduce (lines 68-107). -/
def lvStep (acc : List (String × List LVEntry)) (row : LVRow) :
    List (String × List LVEntry) :=
  updateDate acc row.date (entryOf row)

/-- The `groupedData` reduce of src/app/(calendar)/listView.tsx lines 68-107. -/
def lvGroup (rows : List LVRow) : List (String × List LVEntry) :=
  rows.foldl lvStep []

/-- The `ListWorkout` view-model (src/types/listView.ts). -/
structure ListWorkout where
  date : String
  data : List LVEntry
deriving DecidableEq

/-- The `formattedData` mapping of listView.tsx lines 109-115:
`Object.keys(groupedData).map((date) => ({date, data: groupedData[date]}))`. -/
def lvFormatted (rows : List LVRow) : List ListWorkout :=
  (lvGroup rows).map (fun p => ⟨p.1, p.2⟩)

/-- The keys of the accumulator object, in insertion order. -/
def lvKeys (acc : List (String × List LVEntry)) : List String := acc.map (·.1)

/-- Concatenation of the lists stored under key `d`. -/
def entriesAt (d : String) (acc : List (String × List LVEntry)) : List LVEntry :=
  ((acc.filter (fun p => p.1 = d)).map (·.2)).flatten

/-! ## The category dedup reduce of ListViewItem -/

/-- A `{category_colour, category_name}` pair accumulated by the ListViewItem
dedup reduce. -/
structure CatPair where
  category_colour : Option String
  category_name : Option String
deriving DecidableEq

/-- One step of the category dedup reduce of src/components/ListViewItem.tsx
lines 135-156: append a `{category_colour, category_name}` pair only when no
accumulated pair has the same `category_name`
(`!acc.some((item) => item.category_name === cat.category_name)`). -/
def catStep (acc : List CatPair) (cat : LVEntry) : List CatPair :=
  if acc.any (fun item => item.category_name = cat.category_name) then acc
  else acc ++ [⟨cat.category_colour, cat.category_name⟩]

/-- The category dedup reduce of src/components/ListViewItem.tsx lines 135-156. -/
def catDedup (data : List LVEntry) : List CatPair :=
  data.foldl catStep []

/-- The same accumulation step expressed directly on pairs (the pair pushed by
`catStep` is the whole pair, by structure eta). -/
def nameStep (acc : List CatPair) (c : CatPair) : List CatPair :=
  if acc.any (fun item => item.category_name = c.category_name) then acc
  else acc ++ [c]

/-- A bare pair list viewed as entries (with no sets and no exercise name), so
that the dedup disciplines can be compared on plain pair lists. -/
def entriesOfPairs (l : List CatPair) : List LVEntry :=
  l.map (fun c => ⟨none, c.category_name, c.category_colour, []⟩)

/-- The list-view dedup discipline on pair lists: dedup by `category_name`
(the ListViewItem reduce). -/
def dedupByName (l : List CatPair) : List CatPair :=
  catDedup (entriesOfPairs l)

/-- Modelled from the spec (§9): the calendar-view dedup discipline, which the
spec describes as dedup "by colour value string"; the repository realizes the
calendar dedup inside an SQL query in src/app/(calendar)/index.tsx, not in
TypeScript source. Same accumulation scheme, keyed on `category_colour`. -/
def colStep (acc : List CatPair) (c : CatPair) : List CatPair :=
  if acc.any (fun item => item.category_colour = c.category_colour) then acc
  else acc ++ [c]

/-- The colour-keyed dedup discipline (see `colStep`). -/
def dedupByColour (l : List CatPair) : List CatPair :=
  l.foldl colStep []

/-! ## The by-date grouping reduce of history.tsx -/

/-- Output group of the history.tsx reduce (`TransformedHistoryData`). -/
structure TransformedHistoryData where
  date : String
  sets : List Set
deriving DecidableEq

/-- One step of the history.tsx reduce (lines 143-156): find the first group
with matching `date` and push the set, otherwise append a new group. -/
def historyAdd : List TransformedHistoryData → Set → List TransformedHistoryData
  | [], s => [⟨s.date, [s]⟩]
  | g :: gs, s =>
    if g.date = s.date then ⟨g.date, g.sets ++ [s]⟩ :: gs
    else g :: historyAdd gs s

/-- The grouping reduce of src/app/exercise/[exerciseId]/history.tsx. -/
def historyGroup (data : List Set) : List TransformedHistoryData :=
  data.foldl historyAdd []

/-! ## Contract C: byDay (calendar day markers) -/

/-- Modelled from the spec: Contract C `byDay` (§4.2). The repository computes
this inside an SQL query in src/app/(calendar)/index.tsx (nested GROUP BY over
dates and category names), not in TypeScript source. Per the spec's words:
group rows purely by date and, per date, accumulate the distinct
colour/category pairs. One step of that accumulation. -/
def byDayAdd (acc : List (String × List CatPair)) (r : LVRow) :
    List (String × List CatPair) :=
  match acc with
  | [] => [(r.date, [⟨r.category_colour, r.category_name⟩])]
  | (d, l) :: rest =>
    if d = r.date then
      (d,
        if l.any (fun c => c.category_colour = r.category_colour ∧
            c.category_name = r.category_name) then l
        else l ++ [⟨r.category_colour, r.category_name⟩]) :: rest
    else (d, l) :: byDayAdd rest r

/-- Modelled from the spec: Contract C `byDay` — for each date, the list of
distinct category colours present that day. -/
def byDay (rows : List LVRow) : List (String × List (Option String)) :=
  (rows.foldl byDayAdd []).map (fun p => (p.1, p.2.map (·.category_colour)))

/-! ## displayDate (src/utils/displayDate.ts) -/

/-- A JS `Date` object: a heap reference paired with its epoch value. -/
structure JSDate where
  ref : Nat
  val : Int
deriving DecidableEq

/-- Evaluating `new Date(v)` with allocation counter `h`: the object carries a
fresh reference and the counter advances. -/
def newDate (h : Nat) (v : Int) : JSDate × Nat := (⟨h, v⟩, h + 1)

/-- src/utils/displayDate.ts (getToday.ts lines 24-42). `parse` models
`new Date(string).valueOf()`, `prevDay` models
`new Date(new Date(today).setDate(new Date(today).getDate() - 1)).valueOf()`
(the epoch of the day before `today`), and `locFmt` models
`toLocaleDateString(undefined, {weekday, month, day, year})`. `===` between two
objects compares references; both operands of the yesterday test are freshly
constructed `Date` objects, modelled by consecutive allocations. -/
def displayDate (h0 : Nat) (parse : String → Int) (prevDay : Int → Int)
    (locFmt : String → String) (date today : String) : String :=
  if date = today then "TODAY"
  else
    let a1 := newDate h0 (parse date)
    let a2 := newDate a1.2 (prevDay (parse today))
    if a1.1.ref = a2.1.ref then "YESTERDAY"
    else (locFmt date).toUpper

/-! ## Concrete inputs used by witnesses and counterexamples -/

/-- A set with only `weight` and `reps` populated (the §8 example's first set). -/
def exSetWR : Set := ⟨some 1, "2024-01-01", 1, some 100, some 5, none, none, none⟩

/-- A set with all four measurement fields null (an illegal shape). -/
def exSetAllNull : Set := ⟨some 9, "2024-01-01", 1, none, none, none, none, none⟩

/-- A dictionary with exactly the ten canonical keys (the shape of the
`displayVariants` dictionaries in history.tsx and ListViewItem), with the
rendering closures abstracted to `Unit`. -/
def unitVariantsDict : String → Option (Set → Unit) :=
  fun k => if k ∈ displayVariantDomain then some (fun _ => ()) else none

/-- A listView row whose single set has id 5. -/
def lvRowA : LVRow :=
  ⟨"2024-01-01", some "Squat", some "Legs", some "#ff0000",
    [⟨some 5, "2024-01-01", 1, none, some 5, none, none, none⟩]⟩

/-- A listView row whose single set has id 3, same date as `lvRowA`. -/
def lvRowB : LVRow :=
  ⟨"2024-01-01", some "Bench", some "Chest", some "#00ff00",
    [⟨some 3, "2024-01-01", 2, none, some 8, none, none, none⟩]⟩

/-- A listView row whose joined `exercise_name` is null (dangling foreign key). -/
def lvRowNull : LVRow :=
  ⟨"2024-01-02", none, none, none,
    [⟨some 7, "2024-01-02", 3, none, some 4, none, none, none⟩]⟩

/-- Two categories sharing one colour: name does determine colour on this list,
yet the two dedup disciplines disagree on it. -/
def sharedColourPairs : List CatPair :=
  [⟨some "#ff0000", some "Legs"⟩, ⟨some "#ff0000", some "Arms"⟩]

/-- Two categories in bijection with their colours. -/
def bijColourPairs : List CatPair :=
  [⟨some "#ff0000", some "Legs"⟩, ⟨some "#00ff00", some "Arms"⟩,
   ⟨some "#ff0000", some "Legs"⟩]

end AtomiFit

namespace AtomiFit

/-! ## Helper lemmas: firstSeen -/

theorem firstSeenAux_congr {α : Type} [DecidableEq α] (seen seen' : List α)
    (h : ∀ a, a ∈ seen ↔ a ∈ seen') (l : List α) :
    firstSeenAux seen l = firstSeenAux seen' l := by
  induction l generalizing seen seen' with
  | nil => rfl
  | cons x xs ih =>
    simp only [firstSeenAux]
    by_cases hx : x ∈ seen
    · rw [if_pos hx, if_pos ((h x).mp hx)]
      exact ih _ _ h
    · rw [if_neg hx, if_neg (fun hh => hx ((h x).mpr hh))]
      have := ih (x :: seen) (x :: seen') (by intro a; simp [h a])
      rw [this]

theorem mem_seen_of_mem_firstSeenAux {α : Type} [DecidableEq α] (seen : List α)
    (l : List α) : ∀ a ∈ firstSeenAux seen l, a ∉ seen := by
  induction l generalizing seen with
  | nil => intro a ha; simp [firstSeenAux] at ha
  | cons x xs ih =>
    intro a ha
    simp only [firstSeenAux] at ha
    by_cases hx : x ∈ seen
    · rw [if_pos hx] at ha
      exact ih seen a ha
    · rw [if_neg hx] at ha
      rcases List.mem_cons.mp ha with rfl | ha
      · exact hx
      · intro hseen
        exact ih (x :: seen) a ha (List.mem_cons_of_mem x hseen)

theorem firstSeenAux_nodup {α : Type} [DecidableEq α] (seen : List α) (l : List α) :
    (firstSeenAux seen l).Nodup := by
  induction l generalizing seen with
  | nil => simp [firstSeenAux]
  | cons x xs ih =>
    simp only [firstSeenAux]
    by_cases hx : x ∈ seen
    · rw [if_pos hx]; exact ih seen
    · rw [if_neg hx]
      refine List.nodup_cons.mpr ⟨?_, ih (x :: seen)⟩
      intro hmem
      exact mem_seen_of_mem_firstSeenAux (x :: seen) xs x hmem (List.mem_cons_self x seen)

theorem mem_of_mem_firstSeenAux {α : Type} [DecidableEq α] (seen : List α) (l : List α) :
    ∀ a ∈ firstSeenAux seen l, a ∈ l := by
  induction l generalizing seen with
  | nil => intro a ha; simp [firstSeenAux] at ha
  | cons x xs ih =>
    intro a ha
    simp only [firstSeenAux] at ha
    by_cases hx : x ∈ seen
    · rw [if_pos hx] at ha
      exact List.mem_cons_of_mem x (ih seen a ha)
    · rw [if_neg hx] at ha
      rcases List.mem_cons.mp ha with rfl | ha
      · exact List.mem_cons_self a xs
      · exact List.mem_cons_of_mem x (ih (x :: seen) a ha)

theorem mem_firstSeenAux_of_mem {α : Type} [DecidableEq α] (seen : List α) (l : List α) :
    ∀ a ∈ l, a ∈ seen ∨ a ∈ firstSeenAux seen l := by
  induction l generalizing seen with
  | nil => intro a ha; simp at ha
  | cons x xs ih =>
    intro a ha
    simp only [firstSeenAux]
    by_cases hx : x ∈ seen
    · rw [if_pos hx]
      rcases List.mem_cons.mp ha with rfl | ha
      · exact Or.inl hx
      · exact ih seen a ha
    · rw [if_neg hx]
      rcases List.mem_cons.mp ha with rfl | ha
      · exact Or.inr (List.mem_cons_self a _)
      · rcases ih (x :: seen) a ha with h | h
        · rcases List.mem_cons.mp h with rfl | h
          · exact Or.inr (List.mem_cons_self a _)
          · exact Or.inl h
        · exact Or.inr (List.mem_cons_of_mem x h)

theorem mem_firstSeen_iff {α : Type} [DecidableEq α] (l : List α) (a : α) :
    a ∈ firstSeen l ↔ a ∈ l := by
  constructor
  · exact mem_of_mem_firstSeenAux [] l a
  · intro ha
    rcases mem_firstSeenAux_of_mem [] l a ha with h | h
    · simp at h
    · exact h

theorem firstSeen_nodup {α : Type} [DecidableEq α] (l : List α) :
    (firstSeen l).Nodup := firstSeenAux_nodup [] l

end AtomiFit

namespace AtomiFit

/-! ## Helper lemmas: the index.tsx grouping reduce -/

theorem addSet_ids (acc : List TransformedExerciseData) (item : QueryData) :
    groupIds (addSet acc item) =
      if rowKey item ∈ groupIds acc then groupIds acc
      else groupIds acc ++ [rowKey item] := by
  induction acc with
  | nil => simp [addSet, groupIds]
  | cons g gs ih =>
    simp only [addSet, groupIds, List.map_cons]
    by_cases hg : g.exerciseId = rowKey item
    · rw [if_pos hg]
      simp [groupIds, hg, List.mem_cons]
    · rw [if_neg hg]
      simp only [List.map_cons, groupIds] at ih ⊢
      by_cases hmem : rowKey item ∈ List.map (fun g => g.exerciseId) gs
      · rw [ih, if_pos hmem,
          if_pos (List.mem_cons_of_mem _ hmem)]
      · rw [ih, if_neg hmem, if_neg ?_]
        · simp
        · intro hc
          rcases List.mem_cons.mp hc with hc | hc
          · exact hg hc.symm
          · exact hmem hc

theorem addSet_nodup_ids (acc : List TransformedExerciseData) (item : QueryData)
    (h : (groupIds acc).Nodup) : (groupIds (addSet acc item)).Nodup := by
  rw [addSet_ids]
  by_cases hmem : rowKey item ∈ groupIds acc
  · rw [if_pos hmem]; exact h
  · rw [if_neg hmem]
    simp [List.nodup_append, h, hmem]

theorem groupReduce_ids_aux (rows : List QueryData) (acc : List TransformedExerciseData) :
    groupIds (List.foldl addSet acc rows) =
      groupIds acc ++ firstSeenAux (groupIds acc) (rows.map rowKey) := by
  induction rows generalizing acc with
  | nil => simp [firstSeenAux]
  | cons r rs ih =>
    simp only [List.foldl_cons, List.map_cons, firstSeenAux]
    by_cases h : rowKey r ∈ groupIds acc
    · rw [if_pos h, ih, addSet_ids, if_pos h]
    · rw [if_neg h, ih, addSet_ids, if_neg h]
      rw [firstSeenAux_congr (groupIds acc ++ [rowKey r]) (rowKey r :: groupIds acc)
        (by intro a; simp [or_comm]) (rs.map rowKey)]
      simp

theorem groupReduce_ids (rows : List QueryData) :
    groupIds (groupReduce rows) = firstSeen (rows.map rowKey) := by
  have := groupReduce_ids_aux rows []
  simpa [groupReduce, groupIds, firstSeen] using this

theorem groupReduce_nodup_ids (rows : List QueryData) :
    (groupIds (groupReduce rows)).Nodup := by
  rw [groupReduce_ids]
  exact firstSeen_nodup _

end AtomiFit

namespace AtomiFit

theorem groupIds_cons (g : TransformedExerciseData) (gs : List TransformedExerciseData) :
    groupIds (g :: gs) = g.exerciseId :: groupIds gs := rfl

theorem setsOfId_eq_nil (e : Int) (l : List TransformedExerciseData)
    (h : e ∉ groupIds l) : setsOfId e l = [] := by
  induction l with
  | nil => rfl
  | cons g gs ih =>
    rw [groupIds_cons] at h
    have hg : ¬ (g.exerciseId = e) := fun hc => h (by simp [hc])
    have hgs : e ∉ groupIds gs := fun hc => h (List.mem_cons_of_mem _ hc)
    simp only [setsOfId] at ih ⊢
    rw [List.filter_cons_of_neg (by simpa using hg)]
    exact ih hgs

theorem addSet_setsOfId (e : Int) (acc : List TransformedExerciseData) (item : QueryData)
    (hnd : (groupIds acc).Nodup) :
    setsOfId e (addSet acc item) =
      setsOfId e acc ++ if rowKey item = e then [item.setsData] else [] := by
  induction acc with
  | nil =>
    by_cases he : rowKey item = e
    · simp [addSet, setsOfId, List.filter_cons, he]
    · simp [addSet, setsOfId, List.filter_cons, he]
  | cons g gs ih =>
    rw [groupIds_cons] at hnd
    have hnd' : (groupIds gs).Nodup := (List.nodup_cons.mp hnd).2
    have hgnotin : g.exerciseId ∉ groupIds gs := (List.nodup_cons.mp hnd).1
    simp only [addSet]
    by_cases hg : g.exerciseId = rowKey item
    · rw [if_pos hg]
      by_cases he : rowKey item = e
      · have hge : g.exerciseId = e := hg.trans he
        have hnil : setsOfId e gs = [] := setsOfId_eq_nil e gs (hge ▸ hgnotin)
        simp only [setsOfId] at hnil ⊢
        simp [List.filter_cons, hge, he, hnil]
      · have hge : ¬ (g.exerciseId = e) := fun hc => he (hg.symm.trans hc)
        simp only [setsOfId]
        simp [List.filter_cons, hge, he]
    · rw [if_neg hg]
      simp only [setsOfId] at ih ⊢
      by_cases hge : g.exerciseId = e <;>
        simp [List.filter_cons, hge, ih hnd']

theorem groupReduce_setsOfId_aux (e : Int) (rows : List QueryData)
    (acc : List TransformedExerciseData) (hnd : (groupIds acc).Nodup) :
    setsOfId e (List.foldl addSet acc rows) =
      setsOfId e acc ++ (rows.filter (fun r => rowKey r = e)).map (·.setsData) := by
  induction rows generalizing acc with
  | nil => simp
  | cons r rs ih =>
    simp only [List.foldl_cons]
    rw [ih (addSet acc r) (addSet_nodup_ids acc r hnd), addSet_setsOfId e acc r hnd]
    by_cases he : rowKey r = e
    · simp [List.filter_cons, he]
    · simp [List.filter_cons, he]

theorem groupReduce_setsOfId (e : Int) (rows : List QueryData) :
    setsOfId e (groupReduce rows) =
      (rows.filter (fun r => rowKey r = e)).map (·.setsData) := by
  have := groupReduce_setsOfId_aux e rows [] (by simp [groupIds])
  simpa [groupReduce, setsOfId] using this

theorem filter_eq_single_of_nodup (l : List TransformedExerciseData)
    (hnd : (groupIds l).Nodup) (g : TransformedExerciseData) (hg : g ∈ l) :
    l.filter (fun x => x.exerciseId = g.exerciseId) = [g] := by
  induction l with
  | nil => simp at hg
  | cons x xs ih =>
    rw [groupIds_cons] at hnd
    have hnd' : (groupIds xs).Nodup := (List.nodup_cons.mp hnd).2
    have hxnotin : x.exerciseId ∉ groupIds xs := (List.nodup_cons.mp hnd).1
    rcases List.mem_cons.mp hg with rfl | hg
    · have hfil : xs.filter (fun x => decide (x.exerciseId = g.exerciseId)) = [] := by
        apply List.filter_eq_nil_iff.mpr
        intro a ha
        simp only [decide_eq_true_eq]
        intro hc
        exact hxnotin (hc ▸ List.mem_map_of_mem (·.exerciseId) ha)
      simp [List.filter_cons, hfil]
    · have hne : ¬ (x.exerciseId = g.exerciseId) := fun hc =>
        hxnotin (hc ▸ List.mem_map_of_mem (·.exerciseId) hg)
      simp only [List.filter_cons, hne, decide_eq_true_eq, if_false, decide_eq_false_iff_not]
      simpa [hne] using ih hnd' hg

theorem sets_eq_setsOfId (l : List TransformedExerciseData)
    (hnd : (groupIds l).Nodup) (g : TransformedExerciseData) (hg : g ∈ l) :
    setsOfId g.exerciseId l = g.sets := by
  unfold setsOfId
  rw [filter_eq_single_of_nodup l hnd g hg]
  simp

theorem groupReduce_group_sets (rows : List QueryData) (g : TransformedExerciseData)
    (hg : g ∈ groupReduce rows) :
    g.sets = (rows.filter (fun r => rowKey r = g.exerciseId)).map (·.setsData) := by
  rw [← groupReduce_setsOfId g.exerciseId rows,
    sets_eq_setsOfId (groupReduce rows) (groupReduce_nodup_ids rows) g hg]

end AtomiFit

namespace AtomiFit

theorem perm_append_singleton_mid {α : Type} (A B : List α) (x : α) :
    ((A ++ [x]) ++ B).Perm ((A ++ B) ++ [x]) := by
  rw [List.append_assoc A [x] B, List.append_assoc A B [x]]
  exact List.Perm.append_left A List.perm_append_comm

theorem addSet_joinSets (acc : List TransformedExerciseData) (item : QueryData) :
    (joinSets (addSet acc item)).Perm (joinSets acc ++ [item.setsData]) := by
  induction acc with
  | nil => simp [addSet, joinSets]
  | cons g gs ih =>
    simp only [addSet]
    by_cases hg : g.exerciseId = rowKey item
    · rw [if_pos hg]
      simp only [joinSets, List.map_cons, List.flatten_cons]
      exact perm_append_singleton_mid g.sets _ item.setsData
    · rw [if_neg hg]
      simp only [joinSets, List.map_cons, List.flatten_cons] at ih ⊢
      refine (List.Perm.append_left g.sets ih).trans ?_
      rw [← List.append_assoc]

theorem groupReduce_joinSets_aux (rows : List QueryData)
    (acc : List TransformedExerciseData) :
    (joinSets (List.foldl addSet acc rows)).Perm
      (joinSets acc ++ rows.map (·.setsData)) := by
  induction rows generalizing acc with
  | nil => simp
  | cons r rs ih =>
    simp only [List.foldl_cons, List.map_cons]
    refine (ih (addSet acc r)).trans ?_
    refine (List.Perm.append_right _ (addSet_joinSets acc r)).trans ?_
    rw [List.append_assoc]
    rfl

theorem groupReduce_joinSets (rows : List QueryData) :
    (joinSets (groupReduce rows)).Perm (rows.map (·.setsData)) := by
  have := groupReduce_joinSets_aux rows []
  simpa [groupReduce, joinSets] using this

theorem addSet_sets_ne_nil (acc : List TransformedExerciseData) (item : QueryData)
    (h : ∀ g ∈ acc, g.sets ≠ []) : ∀ g ∈ addSet acc item, g.sets ≠ [] := by
  induction acc with
  | nil =>
    intro g hg
    simp only [addSet, List.mem_singleton] at hg
    subst hg
    simp
  | cons x xs ih =>
    intro g hg
    simp only [addSet] at hg
    by_cases hx : x.exerciseId = rowKey item
    · rw [if_pos hx] at hg
      rcases List.mem_cons.mp hg with rfl | hg
      · simp
      · exact h g (List.mem_cons_of_mem x hg)
    · rw [if_neg hx] at hg
      rcases List.mem_cons.mp hg with rfl | hg
      · exact h g (List.mem_cons_self _ _)
      · exact ih (fun g' hg' => h g' (List.mem_cons_of_mem x hg')) g hg

theorem groupReduce_sets_ne_nil (rows : List QueryData) :
    ∀ g ∈ groupReduce rows, g.sets ≠ [] := by
  unfold groupReduce
  generalize hacc : ([] : List TransformedExerciseData) = acc
  have hbase : ∀ g ∈ acc, g.sets ≠ [] := by subst hacc; simp
  clear hacc
  induction rows generalizing acc with
  | nil => simpa using hbase
  | cons r rs ih =>
    simp only [List.foldl_cons]
    exact ih (addSet acc r) (addSet_sets_ne_nil acc r hbase)

theorem eq_of_mem_of_nodup_ids (l : List TransformedExerciseData)
    (hnd : (groupIds l).Nodup) (g g' : TransformedExerciseData)
    (hg : g ∈ l) (hg' : g' ∈ l) (he : g.exerciseId = g'.exerciseId) : g = g' := by
  induction l with
  | nil => simp at hg
  | cons x xs ih =>
    rw [groupIds_cons] at hnd
    have hnd' : (groupIds xs).Nodup := (List.nodup_cons.mp hnd).2
    have hxnotin : x.exerciseId ∉ groupIds xs := (List.nodup_cons.mp hnd).1
    rcases List.mem_cons.mp hg with hgx | hgt <;> rcases List.mem_cons.mp hg' with hgx' | hgt'
    · rw [hgx, hgx']
    · have hmem : x.exerciseId ∈ groupIds xs := by
        rw [← hgx, he]
        exact List.mem_map_of_mem (·.exerciseId) hgt'
      exact absurd hmem hxnotin
    · have hmem : x.exerciseId ∈ groupIds xs := by
        rw [← hgx', ← he]
        exact List.mem_map_of_mem (·.exerciseId) hgt
      exact absurd hmem hxnotin
    · exact ih hnd' hgt hgt'

theorem mem_sets_exercise_id (rows : List QueryData) (g : TransformedExerciseData)
    (hg : g ∈ groupReduce rows) (v : Set) (hv : v ∈ g.sets) :
    v.exercise_id = g.exerciseId := by
  rw [groupReduce_group_sets rows g hg] at hv
  rcases List.mem_map.mp hv with ⟨r, hr, rfl⟩
  have := List.of_mem_filter hr
  simpa [rowKey] using this

end AtomiFit

namespace AtomiFit

/-! ## Helper lemmas: the listView.tsx grouping reduce -/

theorem jsSort_perm (l : List LVEntry) : (jsSort l).Perm l :=
  List.perm_insertionSort lvLEProp l

theorem jsSort_sorted (l : List LVEntry) : (jsSort l).Sorted lvLEProp :=
  List.sorted_insertionSort lvLEProp l

theorem lvKeys_cons (p : String × List LVEntry) (rest : List (String × List LVEntry)) :
    lvKeys (p :: rest) = p.1 :: lvKeys rest := rfl

theorem updateDate_keys (acc : List (String × List LVEntry)) (d : String) (e : LVEntry) :
    lvKeys (updateDate acc d e) =
      if d ∈ lvKeys acc then lvKeys acc else lvKeys acc ++ [d] := by
  induction acc with
  | nil => simp [updateDate, lvKeys]
  | cons p rest ih =>
    obtain ⟨d', l⟩ := p
    simp only [updateDate]
    by_cases hd : d' = d
    · rw [if_pos hd]
      simp [lvKeys, hd, List.mem_cons]
    · rw [if_neg hd]
      rw [lvKeys_cons, lvKeys_cons, ih]
      by_cases hmem : d ∈ lvKeys rest
      · rw [if_pos hmem, if_pos (List.mem_cons_of_mem _ hmem)]
      · rw [if_neg hmem, if_neg ?_]
        · simp
        · intro hc
          rcases List.mem_cons.mp hc with hc | hc
          · exact hd hc.symm
          · exact hmem hc

theorem updateDate_nodup_keys (acc : List (String × List LVEntry)) (d : String)
    (e : LVEntry) (h : (lvKeys acc).Nodup) : (lvKeys (updateDate acc d e)).Nodup := by
  rw [updateDate_keys]
  by_cases hmem : d ∈ lvKeys acc
  · rw [if_pos hmem]; exact h
  · rw [if_neg hmem]
    simp [List.nodup_append, h, hmem]

theorem lvGroup_keys_aux (rows : List LVRow) (acc : List (String × List LVEntry)) :
    lvKeys (List.foldl lvStep acc rows) =
      lvKeys acc ++ firstSeenAux (lvKeys acc) (rows.map (·.date)) := by
  induction rows generalizing acc with
  | nil => simp [firstSeenAux]
  | cons r rs ih =>
    simp only [List.foldl_cons, List.map_cons, firstSeenAux, lvStep]
    by_cases h : r.date ∈ lvKeys acc
    · rw [if_pos h, ih, updateDate_keys, if_pos h]
    · rw [if_neg h, ih, updateDate_keys, if_neg h]
      rw [firstSeenAux_congr (lvKeys acc ++ [r.date]) (r.date :: lvKeys acc)
        (by intro a; simp [or_comm]) (rs.map (·.date))]
      simp

theorem lvGroup_keys (rows : List LVRow) :
    lvKeys (lvGroup rows) = firstSeen (rows.map (·.date)) := by
  have := lvGroup_keys_aux rows []
  simpa [lvGroup, lvKeys, firstSeen] using this

theorem lvGroup_nodup_keys (rows : List LVRow) : (lvKeys (lvGroup rows)).Nodup := by
  rw [lvGroup_keys]
  exact firstSeen_nodup _

theorem entriesAt_eq_nil (d : String) (acc : List (String × List LVEntry))
    (h : d ∉ lvKeys acc) : entriesAt d acc = [] := by
  induction acc with
  | nil => rfl
  | cons p rest ih =>
    rw [lvKeys_cons] at h
    have hp : ¬ (p.1 = d) := fun hc => h (by simp [hc])
    have hrest : d ∉ lvKeys rest := fun hc => h (List.mem_cons_of_mem _ hc)
    simp only [entriesAt] at ih ⊢
    rw [List.filter_cons_of_neg (by simpa using hp)]
    exact ih hrest

theorem updateDate_entriesAt (d : String) (acc : List (String × List LVEntry))
    (d0 : String) (e : LVEntry) :
    (entriesAt d (updateDate acc d0 e)).Perm
      (entriesAt d acc ++ if d0 = d then [e] else []) := by
  induction acc with
  | nil =>
    by_cases hd : d0 = d
    · simp only [updateDate, entriesAt]
      rw [List.filter_cons_of_pos (by simpa using hd)]
      simp [hd]
      rfl
    · simp only [updateDate, entriesAt]
      rw [List.filter_cons_of_neg (by simpa using hd)]
      simp [hd]
  | cons p rest ih =>
    obtain ⟨d', l⟩ := p
    simp only [updateDate]
    by_cases hd' : d' = d0
    · rw [if_pos hd']
      by_cases hd : d0 = d
      · have hdd : d' = d := hd'.trans hd
        simp only [entriesAt]
        rw [List.filter_cons_of_pos (by simpa using hdd),
          List.filter_cons_of_pos (by simpa using hdd)]
        simp only [List.map_cons, List.flatten_cons, if_pos hd]
        refine (List.Perm.append_right _ (jsSort_perm (l ++ [e]))).trans ?_
        exact perm_append_singleton_mid l _ e
      · have hdd : ¬ (d' = d) := fun hc => hd (hd'.symm.trans hc)
        simp only [entriesAt]
        rw [List.filter_cons_of_neg (by simpa using hdd),
          List.filter_cons_of_neg (by simpa using hdd)]
        simp [hd]
    · rw [if_neg hd']
      by_cases hdd : d' = d
      · simp only [entriesAt]
        rw [List.filter_cons_of_pos (by simpa using hdd),
          List.filter_cons_of_pos (by simpa using hdd)]
        simp only [List.map_cons, List.flatten_cons]
        simp only [entriesAt] at ih
        refine (List.Perm.append_left l ih).trans ?_
        rw [← List.append_assoc]
      · simp only [entriesAt]
        rw [List.filter_cons_of_neg (by simpa using hdd),
          List.filter_cons_of_neg (by simpa using hdd)]
        simpa [entriesAt] using ih

theorem lvGroup_entriesAt_aux (d : String) (rows : List LVRow)
    (acc : List (String × List LVEntry)) :
    (entriesAt d (List.foldl lvStep acc rows)).Perm
      (entriesAt d acc ++ (rows.filter (fun r => r.date = d)).map entryOf) := by
  induction rows generalizing acc with
  | nil => simp
  | cons r rs ih =>
    simp only [List.foldl_cons, lvStep]
    refine (ih (updateDate acc r.date (entryOf r))).trans ?_
    refine (List.Perm.append_right _ (updateDate_entriesAt d acc r.date (entryOf r))).trans ?_
    by_cases hd : r.date = d
    · rw [List.filter_cons_of_pos (by simpa using hd), if_pos hd]
      simp [List.append_assoc]
    · rw [List.filter_cons_of_neg (by simpa using hd), if_neg hd]
      simp

theorem lvGroup_entriesAt (d : String) (rows : List LVRow) :
    (entriesAt d (lvGroup rows)).Perm ((rows.filter (fun r => r.date = d)).map entryOf) := by
  have := lvGroup_entriesAt_aux d rows []
  simpa [lvGroup, entriesAt] using this

end AtomiFit

namespace AtomiFit

theorem updateDate_sorted (acc : List (String × List LVEntry)) (d : String) (e : LVEntry)
    (h : ∀ p ∈ acc, (p.2 : List LVEntry).Sorted lvLEProp) :
    ∀ p ∈ updateDate acc d e, (p.2 : List LVEntry).Sorted lvLEProp := by
  induction acc with
  | nil =>
    intro p hp
    simp only [updateDate, List.mem_singleton] at hp
    subst hp
    exact jsSort_sorted [e]
  | cons q rest ih =>
    obtain ⟨d', l⟩ := q
    intro p hp
    simp only [updateDate] at hp
    by_cases hd : d' = d
    · rw [if_pos hd] at hp
      rcases List.mem_cons.mp hp with rfl | hp
      · exact jsSort_sorted _
      · exact h p (List.mem_cons_of_mem _ hp)
    · rw [if_neg hd] at hp
      rcases List.mem_cons.mp hp with rfl | hp
      · exact h _ (List.mem_cons_self _ _)
      · exact ih (fun q hq => h q (List.mem_cons_of_mem _ hq)) p hp

theorem lvGroup_buckets_sorted (rows : List LVRow) :
    ∀ p ∈ lvGroup rows, (p.2 : List LVEntry).Sorted lvLEProp := by
  unfold lvGroup
  generalize hacc : ([] : List (String × List LVEntry)) = acc
  have hbase : ∀ p ∈ acc, (p.2 : List LVEntry).Sorted lvLEProp := by subst hacc; simp
  clear hacc
  induction rows generalizing acc with
  | nil => simpa using hbase
  | cons r rs ih =>
    simp only [List.foldl_cons, lvStep]
    exact ih _ (updateDate_sorted acc r.date (entryOf r) hbase)

theorem pair_filter_eq_single_of_nodup (acc : List (String × List LVEntry))
    (hnd : (lvKeys acc).Nodup) (d : String) (l : List LVEntry) (h : (d, l) ∈ acc) :
    acc.filter (fun p => p.1 = d) = [(d, l)] := by
  induction acc with
  | nil => simp at h
  | cons q rest ih =>
    rw [lvKeys_cons] at hnd
    have hnd' : (lvKeys rest).Nodup := (List.nodup_cons.mp hnd).2
    have hqnotin : q.1 ∉ lvKeys rest := (List.nodup_cons.mp hnd).1
    rcases List.mem_cons.mp h with rfl | ht
    · rw [List.filter_cons_of_pos (by simp)]
      have hfil : rest.filter (fun p => decide (p.1 = d)) = [] := by
        apply List.filter_eq_nil_iff.mpr
        intro a ha
        simp only [decide_eq_true_eq]
        intro hc
        exact hqnotin (hc ▸ List.mem_map_of_mem (·.1) ha)
      rw [hfil]
    · have hne : ¬ (q.1 = d) := by
        intro hc
        have hdm : d ∈ lvKeys rest := List.mem_map_of_mem (·.1) ht
        exact hqnotin (hc ▸ hdm)
      rw [List.filter_cons_of_neg (by simpa using hne)]
      exact ih hnd' ht

theorem entriesAt_eq_of_mem (acc : List (String × List LVEntry))
    (hnd : (lvKeys acc).Nodup) (d : String) (l : List LVEntry) (h : (d, l) ∈ acc) :
    entriesAt d acc = l := by
  unfold entriesAt
  rw [pair_filter_eq_single_of_nodup acc hnd d l h]
  simp

theorem lvGroup_bucket_perm (rows : List LVRow) (d : String) (l : List LVEntry)
    (h : (d, l) ∈ lvGroup rows) :
    l.Perm ((rows.filter (fun r => r.date = d)).map entryOf) := by
  have := lvGroup_entriesAt d rows
  rwa [entriesAt_eq_of_mem (lvGroup rows) (lvGroup_nodup_keys rows) d l h] at this

end AtomiFit

namespace AtomiFit

/-! ## Helper lemmas: category dedup -/

theorem any_name_eq_mem (acc : List CatPair) (n : Option String) :
    (acc.any (fun item => item.category_name = n) = true) ↔
      n ∈ acc.map (·.category_name) := by
  simp only [List.any_eq_true, decide_eq_true_eq, List.mem_map]

theorem catStep_names (acc : List CatPair) (cat : LVEntry) :
    (catStep acc cat).map (·.category_name) =
      if cat.category_name ∈ acc.map (·.category_name) then acc.map (·.category_name)
      else acc.map (·.category_name) ++ [cat.category_name] := by
  unfold catStep
  by_cases hmem : cat.category_name ∈ acc.map (·.category_name)
  · rw [if_pos ((any_name_eq_mem acc cat.category_name).mpr hmem), if_pos hmem]
  · rw [if_neg (fun hc => hmem ((any_name_eq_mem acc cat.category_name).mp hc)),
      if_neg hmem]
    simp

theorem catDedup_names_aux (data : List LVEntry) (acc : List CatPair) :
    (List.foldl catStep acc data).map (·.category_name) =
      acc.map (·.category_name) ++
        firstSeenAux (acc.map (·.category_name)) (data.map (·.category_name)) := by
  induction data generalizing acc with
  | nil => simp [firstSeenAux]
  | cons c cs ih =>
    simp only [List.foldl_cons, List.map_cons, firstSeenAux]
    by_cases h : c.category_name ∈ acc.map (·.category_name)
    · rw [if_pos h, ih, catStep_names, if_pos h]
    · rw [if_neg h, ih, catStep_names, if_neg h]
      rw [firstSeenAux_congr (acc.map (·.category_name) ++ [c.category_name])
        (c.category_name :: acc.map (·.category_name)) (by intro a; simp [or_comm])
        (cs.map (·.category_name))]
      simp

theorem catDedup_names (data : List LVEntry) :
    (catDedup data).map (·.category_name) = firstSeen (data.map (·.category_name)) := by
  have := catDedup_names_aux data []
  simpa [catDedup, firstSeen] using this

theorem firstSeen_length_toFinset {α : Type} [DecidableEq α] (l : List α) :
    (firstSeen l).length = l.toFinset.card := by
  rw [← List.toFinset_card_of_nodup (firstSeen_nodup l)]
  congr 1
  apply Finset.ext
  intro a
  simp [List.mem_toFinset, mem_firstSeen_iff]

/-! ## Helper lemmas: the two dedup disciplines -/

theorem dedupByName_eq_foldl (l : List CatPair) :
    dedupByName l = l.foldl nameStep [] := by
  unfold dedupByName catDedup entriesOfPairs
  rw [List.foldl_map]
  rfl

theorem dedup_guards_agree (univ : List CatPair)
    (h : ∀ a ∈ univ, ∀ b ∈ univ,
      (a.category_name = b.category_name ↔ a.category_colour = b.category_colour))
    (c : CatPair) (hc : c ∈ univ) (acc : List CatPair) (hacc : ∀ x ∈ acc, x ∈ univ) :
    (acc.any (fun item => item.category_name = c.category_name)) =
      (acc.any (fun item => item.category_colour = c.category_colour)) := by
  rw [Bool.eq_iff_iff]
  simp only [List.any_eq_true, decide_eq_true_eq]
  constructor
  · rintro ⟨i, hi, he⟩
    exact ⟨i, hi, (h i (hacc i hi) c hc).mp he⟩
  · rintro ⟨i, hi, he⟩
    exact ⟨i, hi, (h i (hacc i hi) c hc).mpr he⟩

theorem dedup_foldl_agree (univ : List CatPair)
    (h : ∀ a ∈ univ, ∀ b ∈ univ,
      (a.category_name = b.category_name ↔ a.category_colour = b.category_colour))
    (data : List CatPair) (hdata : ∀ c ∈ data, c ∈ univ)
    (acc : List CatPair) (hacc : ∀ x ∈ acc, x ∈ univ) :
    data.foldl nameStep acc = data.foldl colStep acc := by
  induction data generalizing acc with
  | nil => rfl
  | cons c cs ih =>
    have hc : c ∈ univ := hdata c (List.mem_cons_self _ _)
    have hcs : ∀ x ∈ cs, x ∈ univ := fun x hx => hdata x (List.mem_cons_of_mem _ hx)
    simp only [List.foldl_cons, nameStep, colStep,
      dedup_guards_agree univ h c hc acc hacc]
    by_cases hg : acc.any (fun item => item.category_colour = c.category_colour) = true
    · rw [if_pos hg]
      exact ih hcs acc hacc
    · rw [if_neg hg]
      refine ih hcs (acc ++ [c]) ?_
      intro x hx
      rcases List.mem_append.mp hx with hx | hx
      · exact hacc x hx
      · rw [List.mem_singleton.mp hx]
        exact hc

end AtomiFit

namespace AtomiFit

/-! ## Further classifier lemmas -/

theorem illegal_shape_key_not_in_domain (s : Set) (h : shape s ∉ legalShapes) :
    displayKeys s ∉ displayVariantDomain := by
  obtain ⟨i, d, e, w, r, di, t, n⟩ := s
  cases w <;> cases r <;> cases di <;> cases t <;>
    first
      | (refine absurd ?_ h; simp [shape, legalShapes]; done)
      | (show ("" : String) ∉ displayVariantDomain; decide)
      | (show ("weight_reps_distance" : String) ∉ displayVariantDomain; decide)
      | (show ("weight_reps_time" : String) ∉ displayVariantDomain; decide)
      | (show ("weight_distance_time" : String) ∉ displayVariantDomain; decide)
      | (show ("reps_distance_time" : String) ∉ displayVariantDomain; decide)
      | (show ("weight_reps_distance_time" : String) ∉ displayVariantDomain; decide)

/-! ## Claim theorems -/

/-- C1: for every `Set` whose populated-field combination is one of the ten
legal subsets of {weight, reps, distance, time}, the key computation of
`setDisplayVariant` produces the corresponding canonical underscore-joined key,
with field names always in the fixed order weight, reps, distance, time. -/
theorem classify_legal_shapes (s : Set) (h : shape s ∈ legalShapes) :
    displayKeys s = canonicalKey (shape s) := by
  obtain ⟨i, d, e, w, r, di, t, n⟩ := s
  cases w <;> cases r <;> cases di <;> cases t <;>
    first
      | rfl
      | (exfalso; revert h; simp [shape, legalShapes])

/-- Witness for C1: the classifier evaluated on a weight-and-reps set. -/
theorem classify_legal_shapes_witness :
    shape exSetWR ∈ legalShapes ∧ displayKeys exSetWR = canonicalKey (shape exSetWR) :=
  ⟨by decide, classify_legal_shapes exSetWR (by decide)⟩

/-- C4: for every `Set` whose populated-field combination is not one of the ten
canonical shapes, and any `displayVariants` dictionary whose keys are exactly
the ten canonical keys, the lookup of `setDisplayVariant` yields `undefined`
and invoking it throws — an explicit, distinguishable error surfaced to the
caller, never a silently rendered value. -/
theorem setDisplayVariant_illegal_shape_errors {α : Type} (s : Set)
    (dict : String → Option (Set → α))
    (hdom : ∀ k, (dict k).isSome = true ↔ k ∈ displayVariantDomain)
    (h : shape s ∉ legalShapes) :
    setDisplayVariant s dict =
      Except.error "TypeError: displayVariantsDictionary[displayKeys] is not a function" := by
  have hk := illegal_shape_key_not_in_domain s h
  have hnone : dict (displayKeys s) = none := by
    rcases hd : dict (displayKeys s) with _ | f
    · rfl
    · exact absurd ((hdom (displayKeys s)).mp (by rw [hd]; rfl)) hk
  simp [setDisplayVariant, hnone]

/-- Witness for C4: an all-null set against a ten-key dictionary errors. -/
theorem setDisplayVariant_illegal_shape_errors_witness :
    setDisplayVariant exSetAllNull unitVariantsDict =
      Except.error "TypeError: displayVariantsDictionary[displayKeys] is not a function" :=
  setDisplayVariant_illegal_shape_errors exSetAllNull unitVariantsDict
    (fun k => by
      unfold unitVariantsDict
      by_cases hk : k ∈ displayVariantDomain <;> simp [hk])
    (by decide)

/-- C2: the index.tsx grouping reduce produces groups whose ids are pairwise
distinct and appear in first-seen order of `exercise_id`, and each group's set
list is exactly the sets of its rows in encounter order. -/
theorem groupReduce_spec (rows : List QueryData) :
    (groupIds (groupReduce rows)).Nodup ∧
    groupIds (groupReduce rows) = firstSeen (rows.map rowKey) ∧
    ∀ g ∈ groupReduce rows,
      g.sets = (rows.filter (fun r => rowKey r = g.exerciseId)).map (·.setsData) :=
  ⟨groupReduce_nodup_ids rows, groupReduce_ids rows,
    fun g hg => groupReduce_group_sets rows g hg⟩

/-- C9: conservation invariant of the index.tsx grouping reduce — the
concatenation of all groups' sets is a permutation of the input rows' sets
(every row's set appears exactly once overall), every group's set list is
non-empty, and no set occurs in two distinct groups. -/
theorem groupReduce_conservation (rows : List QueryData) :
    (joinSets (groupReduce rows)).Perm (rows.map (·.setsData)) ∧
    (∀ g ∈ groupReduce rows, g.sets ≠ []) ∧
    ∀ g ∈ groupReduce rows, ∀ g' ∈ groupReduce rows, ∀ v : Set,
      v ∈ g.sets → v ∈ g'.sets → g = g' := by
  refine ⟨groupReduce_joinSets rows, groupReduce_sets_ne_nil rows, ?_⟩
  intro g hg g' hg' v hv hv'
  have h1 := mem_sets_exercise_id rows g hg v hv
  have h2 := mem_sets_exercise_id rows g' hg' v hv'
  exact eq_of_mem_of_nodup_ids (groupReduce rows) (groupReduce_nodup_ids rows) g g'
    hg hg' (h1.symm.trans h2)

/-- C3 counterexample: a row with a null joined `exercise_name` is NOT excluded
from the listView.tsx grouping output — it appears as a (null-named) group. -/
theorem lvGroup_null_name_not_excluded :
    lvGroup [lvRowNull] = [("2024-01-02", [entryOf lvRowNull])] ∧
    (entryOf lvRowNull).exercise_name = none := by
  constructor
  · rfl
  · rfl

/-- C3 corrected: a row whose joined `exercise_name` is null is retained, not
excluded — in listView.tsx its entry lands in its date's bucket, and in
index.tsx its set lands in the grouping output keyed by its set's
`exercise_id` — without throwing and with every other row grouped as usual. -/
theorem null_name_rows_included :
    (∀ (rows : List LVRow) (r : LVRow), r ∈ rows → r.exercise_name = none →
      ∃ l, (r.date, l) ∈ lvGroup rows ∧ entryOf r ∈ l) ∧
    (∀ (qrows : List QueryData) (q : QueryData), q ∈ qrows → q.exerciseName = none →
      q.setsData ∈ joinSets (groupReduce qrows)) := by
  constructor
  · intro rows r hr _
    have hdmem : r.date ∈ lvKeys (lvGroup rows) := by
      rw [lvGroup_keys]
      exact (mem_firstSeen_iff _ _).mpr (List.mem_map_of_mem (·.date) hr)
    rcases List.mem_map.mp hdmem with ⟨p, hp, hfst⟩
    refine ⟨p.2, ?_, ?_⟩
    · rw [← hfst]
      exact hp
    · have hperm := lvGroup_bucket_perm rows p.1 p.2 hp
      rw [hfst] at hperm
      refine hperm.mem_iff.mpr ?_
      refine List.mem_map_of_mem entryOf ?_
      refine List.mem_filter.mpr ⟨hr, by simp⟩
  · intro qrows q hq _
    exact (groupReduce_joinSets qrows).mem_iff.mpr
      (List.mem_map_of_mem (·.setsData) hq)

/-- C5 counterexample: with two same-date rows supplied in the order
[first-set-id 5, first-set-id 3], the listView.tsx reduce outputs the groups
sorted by first set id, not in insertion (first-seen) order. -/
theorem lvGroup_sorts_not_insertion_order :
    lvGroup [lvRowA, lvRowB] = [("2024-01-01", [entryOf lvRowB, entryOf lvRowA])] ∧
    [entryOf lvRowB, entryOf lvRowA] ≠ [entryOf lvRowA, entryOf lvRowB] := by
  constructor
  · rfl
  · decide

/-- C5 corrected: within each date, the listView.tsx reduce outputs the date's
groups sorted ascending by the id of their first set (the
`(a, b) => firstSetA - firstSetB` comparator), as a permutation of the date's
rows; each group's set list is carried over from its row unchanged. -/
theorem lvGroup_bucket_sorted_perm (rows : List LVRow) (d : String) (l : List LVEntry)
    (h : (d, l) ∈ lvGroup rows) :
    l.Sorted lvLEProp ∧ l.Perm ((rows.filter (fun r => r.date = d)).map entryOf) :=
  ⟨lvGroup_buckets_sorted rows (d, l) h, lvGroup_bucket_perm rows d l h⟩

/-- Witness for the corrected C5, on the counterexample input. -/
theorem lvGroup_bucket_sorted_perm_witness :
    ("2024-01-01", [entryOf lvRowB, entryOf lvRowA]) ∈ lvGroup [lvRowA, lvRowB] ∧
    ([entryOf lvRowB, entryOf lvRowA].Sorted lvLEProp ∧
      [entryOf lvRowB, entryOf lvRowA].Perm
        (([lvRowA, lvRowB].filter (fun r => r.date = "2024-01-01")).map entryOf)) :=
  ⟨by decide, lvGroup_bucket_sorted_perm [lvRowA, lvRowB] "2024-01-01"
    [entryOf lvRowB, entryOf lvRowA] (by decide)⟩

/-- C6: the ListViewItem category dedup keeps the category names in order of
first occurrence, each exactly once; for a date with M distinct category names
among its groups the summary has exactly M entries. -/
theorem catDedup_spec (data : List LVEntry) :
    (catDedup data).map (·.category_name) = firstSeen (data.map (·.category_name)) ∧
    ((catDedup data).map (·.category_name)).Nodup ∧
    (catDedup data).length = (data.map (·.category_name)).toFinset.card := by
  refine ⟨catDedup_names data, ?_, ?_⟩
  · rw [catDedup_names]
    exact firstSeen_nodup _
  · have h := congrArg List.length (catDedup_names data)
    rw [List.length_map] at h
    rw [h, firstSeen_length_toFinset]

/-- C7: every aggregation contract returns an empty result on empty input —
the index.tsx reduce, the listView.tsx reduce and its formatted output, the
history.tsx reduce, Contract C's byDay, and the category dedup. -/
theorem empty_input_empty_output :
    groupReduce [] = [] ∧ lvGroup [] = [] ∧ lvFormatted [] = [] ∧
    historyGroup [] = [] ∧ byDay [] = [] ∧ catDedup [] = [] :=
  ⟨rfl, rfl, rfl, rfl, rfl, rfl⟩

/-- C8 counterexample: two categories with distinct names sharing one colour —
equal names still imply equal colours on this list, yet dedup by name yields
the colour twice while dedup by colour yields it once. -/
theorem dedup_disciplines_differ :
    (∀ a ∈ sharedColourPairs, ∀ b ∈ sharedColourPairs,
      a.category_name = b.category_name → a.category_colour = b.category_colour) ∧
    (dedupByName sharedColourPairs).map (·.category_colour) ≠
      (dedupByColour sharedColourPairs).map (·.category_colour) := by
  constructor
  · decide
  · decide

/-- C8 corrected: the two dedup disciplines agree when category name and
category colour determine each other on the input (both directions — name
determining colour alone is not enough, as two categories may share a colour:
the schema has a unique index on category name only, not on colour). -/
theorem dedup_disciplines_agree (l : List CatPair)
    (h : ∀ a ∈ l, ∀ b ∈ l,
      (a.category_name = b.category_name ↔ a.category_colour = b.category_colour)) :
    dedupByName l = dedupByColour l := by
  rw [dedupByName_eq_foldl]
  exact dedup_foldl_agree l h l (fun c hc => hc) [] (by simp)

/-- Witness for the corrected C8: a list on which names and colours are in
bijection; both disciplines produce the same output. -/
theorem dedup_disciplines_agree_witness :
    (∀ a ∈ bijColourPairs, ∀ b ∈ bijColourPairs,
      (a.category_name = b.category_name ↔ a.category_colour = b.category_colour)) ∧
    dedupByName bijColourPairs = dedupByColour bijColourPairs :=
  ⟨by decide, dedup_disciplines_agree bijColourPairs (by decide)⟩

/-- C10: `displayDate` never returns "YESTERDAY" — it returns "TODAY" when the
two date strings are equal and otherwise the uppercased locale-formatted date,
because the yesterday branch compares two freshly constructed `Date` objects
with `===` (reference equality), which is false for all inputs. -/
theorem displayDate_never_yesterday (h0 : Nat) (parse : String → Int)
    (prevDay : Int → Int) (locFmt : String → String) (date today : String) :
    displayDate h0 parse prevDay locFmt date today =
      if date = today then "TODAY" else (locFmt date).toUpper := by
  unfold displayDate newDate
  by_cases h : date = today
  · rw [if_pos h, if_pos h]
  · rw [if_neg h, if_neg h]
    simp

end AtomiFit
